import Mathlib

/-!
Verification of `src/hamilton_cycle.py` (class `HamiltonCycleColoring`).

The two algorithms `hamilton_backtracking` and `hamilton_bruteforce` are
embedded as pure Lean functions.  A Python `set` of vertices is modelled as a
`List Int` (the set's iteration order); an edge list as `List (Int × Int)`.
Python values that may be either a list or `None` are modelled as
`Option (List Int)` (`none` = Python `None`, `some l` = the Python list `l`).
The mutable accumulators of the Python code become explicit state records
threaded through the recursion.  The unbounded Python recursion of the
backtracking search is embedded with an explicit fuel parameter; under the
documented preconditions the recursion depth is bounded by the vertex count,
so the fuel supplied by the top-level entry point is never exhausted.
-/

/-- Result shape of both solvers: Python returns
`[path_found, path, cycle_found, cycle, largest_cycle_size]`. -/
structure HCResult where
  path_found : Bool
  path : Option (List Int)
  cycle_found : Bool
  cycle : Option (List Int)
  largest_cycle_size : Nat
deriving DecidableEq, Repr

/-- The mutable accumulators that both solvers thread through their loops:
`Hamiltonian_Path` / `hamiltonian_path`, `Hamiltonian_Cycle` /
`hamiltonian_cycle` and `Largest_Cycle_Size` / `largest_cycle_size`. -/
structure SearchState where
  hamPath : List Int
  hamCycle : List Int
  largest : Nat
deriving DecidableEq, Repr

/-- `check_for_cycle(cur_node, start_node)`: is there an edge between
`cur_node` and `start_node` (testing both orientations, as the source does)? -/
def check_for_cycle (edges : List (Int × Int)) (cur_node start_node : Int) : Bool :=
  edges.any fun e => (cur_node == e.1 && start_node == e.2)
                  || (cur_node == e.2 && start_node == e.1)

/-- The `for edge in edges` loop at the bottom of `recurse`: try to extend the
visited path by one unvisited neighbour of `cur` per edge, recursing via
`recur` (the recursive call at one less fuel), and stop as soon as a
Hamiltonian cycle has been recorded (`if Hamiltonian_Cycle != []: return`). -/
def btExtend (recur : List Int → Int → SearchState → SearchState)
    (cur : Int) (visited : List Int) :
    List (Int × Int) → SearchState → SearchState
  | [], s => s
  | e :: rest, s =>
    let neighbor : Option Int :=
      if e.2 == cur && !(visited.contains e.1) then some e.1
      else if e.1 == cur && !(visited.contains e.2) then some e.2
      else none
    match neighbor with
    | none => btExtend recur cur visited rest s
    | some v =>
      let s' := recur (visited ++ [v]) v s
      if s'.hamCycle ≠ [] then s' else btExtend recur cur visited rest s'

/-- The inner `recurse(visited, cur_node)` of `hamilton_backtracking`.
`n` is `Num_Vertices`; `fuel` bounds the recursion depth (the Python
recursion is unbounded; with the preconditions of the spec the depth never
exceeds the vertex count, so the caller's fuel suffices). -/
def recurseBT (n : Nat) (edges : List (Int × Int)) :
    Nat → List Int → Int → SearchState → SearchState
  | 0, _, _, s => s
  | fuel + 1, visited, cur, s =>
    -- "Need at least 3 vertices for a valid cycle"
    let s1 : SearchState :=
      if 3 ≤ visited.length && check_for_cycle edges cur visited.headI then
        { s with largest := max s.largest visited.length }
      else s
    -- base case
    if n = visited.length then
      let s2 : SearchState := { s1 with hamPath := visited }
      if check_for_cycle edges cur visited.headI then
        { s2 with hamCycle := visited ++ [visited.headI], largest := visited.length }
      else s2
    else
      btExtend (recurseBT n edges fuel) cur visited edges s1

/-- The `for start in vertices` loop: run the search from each start vertex,
breaking as soon as a Hamiltonian cycle has been recorded. -/
def btStartLoop (solveFrom : Int → SearchState → SearchState) :
    List Int → SearchState → SearchState
  | [], s => s
  | v :: rest, s =>
    let s' := solveFrom v s
    if s'.hamCycle ≠ [] then s' else btStartLoop solveFrom rest s'

/-- `hamilton_backtracking(vertices, edges)`. -/
def hamilton_backtracking (vertices : List Int) (edges : List (Int × Int)) :
    HCResult :=
  let n := vertices.length
  let s := btStartLoop (fun start s => recurseBT n edges (n + 1) [start] start s)
             vertices ⟨[], [], 0⟩
  { path_found := s.hamPath != []
    path := some s.hamPath
    cycle_found := s.hamCycle != []
    cycle := some s.hamCycle
    largest_cycle_size := s.largest }

/-- `has_edge(u, v)`: membership in the `edge_set` built by inserting both
`(u, v)` and `(v, u)` for every listed edge. -/
def has_edge (edges : List (Int × Int)) (u v : Int) : Bool :=
  edges.any fun e => (e.1 == u && e.2 == v) || (e.1 == v && e.2 == u)

/-- `is_valid_path(perm)`: every consecutive pair of the sequence is joined
by an edge. -/
def is_valid_path (edges : List (Int × Int)) : List Int → Bool
  | [] => true
  | [_] => true
  | a :: b :: rest => has_edge edges a b && is_valid_path edges (b :: rest)

/-- All ways to pick one element out of a list, each paired with the list of
the remaining elements in order: the splits `remaining[i]`,
`remaining[:i] + remaining[i+1:]` of the source, for `i = 0, 1, ...`. -/
def picks : List Int → List (Int × List Int)
  | [] => []
  | a :: rest => (a, rest) :: (picks rest).map fun p => (p.1, a :: p.2)

/-- The inner `backtrack(current, remaining)` of `generate_permutations`:
append `current` once `remaining` is empty, else pick each remaining element
in turn.  Results are accumulated in the source's iteration order.  The
recursion of the source is on the shrinking `remaining`; it is embedded
structurally via a fuel parameter that the caller sets to `remaining`'s
length, which the recursion never exhausts. -/
def genPermsAux : Nat → List Int → List Int → List (List Int)
  | _, current, [] => [current]
  | 0, _, _ => []
  | fuel + 1, current, remaining =>
    ((picks remaining).map fun p => genPermsAux fuel (current ++ [p.1]) p.2).flatten

/-- `generate_permutations(arr)`. -/
def generate_permutations (arr : List Int) : List (List Int) :=
  genPermsAux arr.length [] arr

/-- The loop `for i in range(start, len(arr))` of `backtrack_subset`:
extend `current` with each element of the remaining suffix in turn,
recursing (via `recur`, the enclosing recursion one level deeper) on the
suffix strictly after that element. -/
def subsetsLoop (recur : List Int → List Int → List (List Int))
    (current : List Int) : List Int → List (List Int)
  | [] => []
  | a :: rest => recur (current ++ [a]) rest ++ subsetsLoop recur current rest

/-- One call of `backtrack_subset(start, current)` in `generate_subsets`:
emit `current` when it has at least 3 elements, then run the extension loop
over the suffix `arr[start:]` (here: `rest`).  The source recursion is on
the shrinking suffix; it is embedded structurally via a fuel parameter that
the caller sets high enough that it is never exhausted. -/
def subsetsFrom : Nat → List Int → List Int → List (List Int)
  | 0, current, _ => if 3 ≤ current.length then [current] else []
  | fuel + 1, current, rest =>
    (if 3 ≤ current.length then [current] else []) ++
      subsetsLoop (subsetsFrom fuel) current rest

/-- `generate_subsets(arr)`: all subsets (index-increasing selections) of
size at least 3. -/
def generate_subsets (arr : List Int) : List (List Int) :=
  subsetsFrom (arr.length + 1) [] arr

/-- The body of the first loop of `hamilton_bruteforce` (`for perm in
all_perms`), acting on one permutation. -/
def bfPermStep (edges : List (Int × Int)) (n : Nat) (s : SearchState)
    (perm : List Int) : SearchState :=
  if is_valid_path edges perm then
    let s1 := if s.hamPath = [] then { s with hamPath := perm } else s
    if 3 ≤ perm.length && has_edge edges (perm.getLastD 0) perm.headI then
      let cycle_size := perm.length
      let s2 := { s1 with largest := max s1.largest cycle_size }
      if cycle_size = n ∧ s2.hamCycle = [] then
        { s2 with hamCycle := perm ++ [perm.headI] }
      else s2
    else s1
  else s

/-- The body of the subset-refinement loop of `hamilton_bruteforce`, acting
on one permutation of one subset: update the running largest cycle size. -/
def bfSubsetStep (edges : List (Int × Int)) (acc : Nat) (perm : List Int) :
    Nat :=
  if is_valid_path edges perm && has_edge edges (perm.getLastD 0) perm.headI then
    max acc perm.length
  else acc

/-- `hamilton_bruteforce(vertices, edges)`. -/
def hamilton_bruteforce (vertices : List Int) (edges : List (Int × Int)) :
    HCResult :=
  let n := vertices.length
  let s := (generate_permutations vertices).foldl (bfPermStep edges n) ⟨[], [], 0⟩
  let largest :=
    if s.largest < n then
      (generate_subsets vertices).foldl
        (fun acc subset =>
          (generate_permutations subset).foldl (bfSubsetStep edges) acc)
        s.largest
    else s.largest
  let path_exists := s.hamPath != []
  let cycle_exists := s.hamCycle != []
  { path_found := path_exists
    path := if path_exists then some s.hamPath else none
    cycle_found := cycle_exists
    cycle := if cycle_exists then some s.hamCycle else none
    largest_cycle_size := largest }

/-- The preconditions stated by the spec: non-empty vertex set (a Python
`set`, hence duplicate-free), every edge endpoint a member of the vertex
set, and no self-loops. -/
def ValidInput (vertices : List Int) (edges : List (Int × Int)) : Prop :=
  vertices ≠ [] ∧ vertices.Nodup ∧
  (∀ e ∈ edges, e.1 ∈ vertices ∧ e.2 ∈ vertices) ∧
  (∀ e ∈ edges, e.1 ≠ e.2)

instance (vertices : List Int) (edges : List (Int × Int)) :
    Decidable (ValidInput vertices edges) := by
  unfold ValidInput; infer_instance

/-- Two vertices are adjacent when the input edge list joins them in either
orientation (the relation tested by `has_edge`). -/
def Adj (edges : List (Int × Int)) (a b : Int) : Prop :=
  has_edge edges a b = true

instance (edges : List (Int × Int)) (a b : Int) : Decidable (Adj edges a b) := by
  unfold Adj; infer_instance

/-- The final search state computed by `hamilton_backtracking` before the
result tuple is assembled. -/
def btFinalState (vertices : List Int) (edges : List (Int × Int)) : SearchState :=
  btStartLoop
    (fun start s =>
      recurseBT vertices.length edges (vertices.length + 1) [start] start s)
    vertices ⟨[], [], 0⟩

/-- The search state of `hamilton_bruteforce` after its full-permutation
phase. -/
def bfPhase1State (vertices : List Int) (edges : List (Int × Int)) : SearchState :=
  (generate_permutations vertices).foldl (bfPermStep edges vertices.length)
    ⟨[], [], 0⟩

/-- The final `largest_cycle_size` of `hamilton_bruteforce`, after the
subset-refinement phase that runs only when the permutation phase found no
Hamiltonian cycle. -/
def bfFinalLargest (vertices : List Int) (edges : List (Int × Int)) : Nat :=
  if (bfPhase1State vertices edges).largest < vertices.length then
    (generate_subsets vertices).foldl
      (fun acc subset =>
        (generate_permutations subset).foldl (bfSubsetStep edges) acc)
      (bfPhase1State vertices edges).largest
  else (bfPhase1State vertices edges).largest

/-- The invariant maintained by both solvers' accumulators over a graph
with vertex list `vertices` and edge list `edges`: the recorded largest
cycle size never exceeds the vertex count and hits the vertex count exactly
when a Hamiltonian cycle has been recorded; a recorded path is a
duplicate-free sequence of pairwise-adjacent vertices; a recorded cycle is
such a path closed by an edge back to its first vertex, with that first
vertex appended, and implies a recorded path. -/
def InvS (vertices : List Int) (edges : List (Int × Int)) (s : SearchState) :
    Prop :=
  s.largest ≤ vertices.length ∧
  (s.hamCycle = [] ↔ s.largest ≠ vertices.length) ∧
  (s.hamPath ≠ [] → List.Chain' (Adj edges) s.hamPath ∧ s.hamPath.Nodup) ∧
  (s.hamCycle ≠ [] →
    s.hamPath ≠ [] ∧
    ∃ p, p ≠ [] ∧ s.hamCycle = p ++ [p.headI] ∧
      List.Chain' (Adj edges) p ∧ p.Nodup ∧ Adj edges (p.getLastD 0) p.headI)

/-- What the spec's validity and cycle-closure properties require of one
result tuple: a found path is a sequence of pairwise-adjacent distinct
vertices; a found cycle ends with its own first element and, with that
duplicate removed, is a valid path whose last element is adjacent to its
first. -/
def ResultPathsOk (edges : List (Int × Int)) (r : HCResult) : Prop :=
  (r.path_found = true →
    ∃ p, r.path = some p ∧ List.Chain' (Adj edges) p ∧ p.Nodup) ∧
  (r.cycle_found = true →
    ∃ c, r.cycle = some c ∧ c ≠ [] ∧ c.getLast? = c.head? ∧
      List.Chain' (Adj edges) c.dropLast ∧ c.dropLast.Nodup ∧
      Adj edges (c.dropLast.getLastD 0) c.dropLast.headI)

theorem picks_length {l : List Int} {x : Int} {r : List Int}
    (h : (x, r) ∈ picks l) : r.length + 1 = l.length := by
  induction l generalizing x r with
  | nil => simp [picks] at h
  | cons a rest ih =>
    simp only [picks, List.mem_cons, List.mem_map] at h
    rcases h with h | ⟨p, hp, hpe⟩
    · cases h; simp
    · cases hpe
      have := ih hp
      simp [← this]

/-- `check_for_cycle` of the backtracking solver and `has_edge` of the
brute-force solver test the same adjacency relation. -/
theorem check_for_cycle_eq_adj (edges : List (Int × Int)) (u v : Int) :
    check_for_cycle edges u v = true ↔ Adj edges u v := by
  simp only [check_for_cycle, Adj, has_edge, List.any_eq_true, Bool.or_eq_true,
    Bool.and_eq_true, beq_iff_eq]
  constructor
  · rintro ⟨e, he, ⟨h1, h2⟩ | ⟨h1, h2⟩⟩
    · exact ⟨e, he, Or.inl ⟨h1.symm, h2.symm⟩⟩
    · exact ⟨e, he, Or.inr ⟨h2.symm, h1.symm⟩⟩
  · rintro ⟨e, he, ⟨h1, h2⟩ | ⟨h1, h2⟩⟩
    · exact ⟨e, he, Or.inl ⟨h1.symm, h2.symm⟩⟩
    · exact ⟨e, he, Or.inr ⟨h2.symm, h1.symm⟩⟩

/-- `is_valid_path` holds exactly when consecutive elements are adjacent. -/
theorem is_valid_path_iff_chain (edges : List (Int × Int)) :
    ∀ p : List Int, is_valid_path edges p = true ↔ List.Chain' (Adj edges) p
  | [] => by simp [is_valid_path]
  | [a] => by simp [is_valid_path]
  | a :: b :: rest => by
    rw [is_valid_path, Bool.and_eq_true, is_valid_path_iff_chain edges (b :: rest),
      List.chain'_cons]
    exact and_congr_left fun _ => Iff.rfl

/-- C1: the spec requires both algorithms to agree on `path_found`,
`cycle_found` and `largest_cycle_size` on every graph with at most 8
vertices that satisfies the preconditions; on the two-vertex graph with the
single edge `(1, 2)` they disagree: the backtracking solver reports a
(two-vertex) cycle of size 2, the brute-force solver reports no cycle and
largest cycle size 0. -/
theorem C1_agreement_fails_on_two_vertices :
    ValidInput [1, 2] [(1, 2)] ∧
    (hamilton_backtracking [1, 2] [(1, 2)]).cycle_found = true ∧
    (hamilton_bruteforce [1, 2] [(1, 2)]).cycle_found = false ∧
    (hamilton_backtracking [1, 2] [(1, 2)]).largest_cycle_size = 2 ∧
    (hamilton_bruteforce [1, 2] [(1, 2)]).largest_cycle_size = 0 := by
  refine ⟨?_, ?_, ?_, ?_, ?_⟩ <;> decide

/-- C2: the claim says every graph with fewer than 3 vertices yields
`cycle_found = false` and `largest_cycle_size = 0`; the backtracking solver
instead returns the cycle `[1, 2, 1]` with `largest_cycle_size = 2` on the
two-vertex graph with edge `(1, 2)` (its completion check lacks the
"at least 3 vertices" guard that its own comment announces). -/
theorem C2_backtracking_two_vertex_cycle :
    hamilton_backtracking [1, 2] [(1, 2)] =
      ⟨true, some [1, 2], true, some [1, 2, 1], 2⟩ ∧
    hamilton_bruteforce [1, 2] [(1, 2)] =
      ⟨true, some [1, 2], false, none, 0⟩ := by
  exact ⟨by decide, by decide⟩

/-- C5: the claim says that when no Hamiltonian cycle exists,
`largest_cycle_size` is the size of the largest simple cycle (0 when there
is none).  The two-vertex graph with edge `(1, 2)` has no simple cycle at
all (a simple cycle needs at least 3 distinct vertices and the graph has
only 2), yet the backtracking solver returns `largest_cycle_size = 2`; the
brute-force solver returns the correct 0. -/
theorem C5_backtracking_counts_a_two_cycle :
    (hamilton_backtracking [1, 2] [(1, 2)]).largest_cycle_size = 2 ∧
    (hamilton_bruteforce [1, 2] [(1, 2)]).largest_cycle_size = 0 ∧
    (∀ c : List Int, c.Nodup → (∀ x ∈ c, x ∈ ([1, 2] : List Int)) →
      c.length ≤ 2) := by
  refine ⟨by decide, by decide, fun c hnd hsub => ?_⟩
  simpa using (List.subperm_of_subset hnd hsub).length_le

set_option maxRecDepth 20000 in
/-- C9: on scenario 3 (vertices `{1,...,5}`, edges
`{1-5, 2-3, 3-5, 4-5}`) both algorithms report no Hamiltonian path, no
Hamiltonian cycle and largest cycle size 0 (the backtracking solver encodes
the two absent sequences as empty lists, the brute-force solver as `None`). -/
theorem C9_scenario_three :
    hamilton_backtracking [1, 2, 3, 4, 5] [(1, 5), (2, 3), (3, 5), (4, 5)] =
      ⟨false, some [], false, some [], 0⟩ ∧
    hamilton_bruteforce [1, 2, 3, 4, 5] [(1, 5), (2, 3), (3, 5), (4, 5)] =
      ⟨false, none, false, none, 0⟩ := by
  exact ⟨by decide, by decide⟩

/-- Both solver results are structure literals of a fixed shape over some
final search state; exposing that shape lets the absence-encoding facts be
proved by case analysis on the state. -/
theorem hamilton_bruteforce_shape (vertices : List Int) (edges : List (Int × Int)) :
    ∃ (s : SearchState) (L : Nat),
      hamilton_bruteforce vertices edges =
        { path_found := s.hamPath != []
          path := if s.hamPath != [] then some s.hamPath else none
          cycle_found := s.hamCycle != []
          cycle := if s.hamCycle != [] then some s.hamCycle else none
          largest_cycle_size := L } :=
  ⟨_, _, rfl⟩

/-- The backtracking result always carries its two (possibly empty) lists. -/
theorem hamilton_backtracking_shape (vertices : List Int) (edges : List (Int × Int)) :
    ∃ (s : SearchState),
      hamilton_backtracking vertices edges =
        { path_found := s.hamPath != []
          path := some s.hamPath
          cycle_found := s.hamCycle != []
          cycle := some s.hamCycle
          largest_cycle_size := s.largest } :=
  ⟨_, rfl⟩

/-- C3 (counterexample): the claim that for both algorithms `path` is an
absent value iff `path_found` is false fails for the backtracking solver:
on the edgeless two-vertex graph it returns `path_found = false` together
with the present empty sequence `some []`, not the absent value. -/
theorem C3_backtracking_empty_not_absent :
    (hamilton_backtracking [1, 2] []).path_found = false ∧
    (hamilton_backtracking [1, 2] []).path = some [] ∧
    ¬((hamilton_backtracking [1, 2] []).path = none ↔
      (hamilton_backtracking [1, 2] []).path_found = false) := by
  refine ⟨by decide, by decide, ?_⟩
  intro h
  exact Option.noConfusion (h.mpr (by decide))

/-- C3 (amended): the absent-value/flag invariant holds as claimed for the
brute-force solver; the backtracking solver instead always returns present
sequences, and the empty sequence plays the role of the absent value: its
`path` is the empty sequence iff `path_found` is false, and its `cycle` is
the empty sequence iff `cycle_found` is false. -/
theorem C3_amended_absence_encoding (vertices : List Int) (edges : List (Int × Int)) :
    ((hamilton_bruteforce vertices edges).path = none ↔
        (hamilton_bruteforce vertices edges).path_found = false) ∧
    ((hamilton_bruteforce vertices edges).cycle = none ↔
        (hamilton_bruteforce vertices edges).cycle_found = false) ∧
    (∃ p, (hamilton_backtracking vertices edges).path = some p ∧
        (p = [] ↔ (hamilton_backtracking vertices edges).path_found = false)) ∧
    (∃ c, (hamilton_backtracking vertices edges).cycle = some c ∧
        (c = [] ↔ (hamilton_backtracking vertices edges).cycle_found = false)) := by
  obtain ⟨s, L, hbf⟩ := hamilton_bruteforce_shape vertices edges
  obtain ⟨t, hbt⟩ := hamilton_backtracking_shape vertices edges
  rw [hbf, hbt]
  refine ⟨?_, ?_, ⟨t.hamPath, rfl, ?_⟩, ⟨t.hamCycle, rfl, ?_⟩⟩
  · cases hp : s.hamPath != [] <;> simp_all
  · cases hc : s.hamCycle != [] <;> simp_all
  · cases hp : t.hamPath != [] <;> simp_all
  · cases hc : t.hamCycle != [] <;> simp_all

/-- C7 (counterexample): the claim that a full-length path overwrites the
recorded Hamiltonian path "only if it was never set" is false.  On vertices
`[1, 2, 3, 4]` with edges `1-2, 2-3, 2-4, 3-4`: a search call entered with
the path already recorded still overwrites it; the search from start vertex
1 alone ends with `[1, 2, 4, 3]` although its own sub-search had recorded
`[1, 2, 3, 4]` first; and the full run returns the path found from the last
start vertex, `[4, 3, 2, 1]`, not the first one found. -/
theorem C7_recorded_path_is_overwritten :
    (recurseBT 4 [(1, 2), (2, 3), (2, 4), (3, 4)] 5 [4] 4
        ⟨[1, 2, 3, 4], [], 0⟩).hamPath = [4, 3, 2, 1] ∧
    (recurseBT 4 [(1, 2), (2, 3), (2, 4), (3, 4)] 3 [1, 2, 3] 3
        ⟨[], [], 0⟩).hamPath = [1, 2, 3, 4] ∧
    (recurseBT 4 [(1, 2), (2, 3), (2, 4), (3, 4)] 5 [1] 1
        ⟨[], [], 0⟩).hamPath = [1, 2, 4, 3] ∧
    (hamilton_backtracking [1, 2, 3, 4] [(1, 2), (2, 3), (2, 4), (3, 4)]).path
        = some [4, 3, 2, 1] := by
  refine ⟨?_, ?_, ?_, ?_⟩ <;> decide

/-- C7 (amended): whenever the visited sequence reaches the full vertex
count, it is recorded as the Hamiltonian path unconditionally, overwriting
any previously recorded path; the final recorded path is therefore the last
full-length path reached before the search stops, not the first. -/
theorem C7_amended_full_length_always_recorded
    (n : Nat) (edges : List (Int × Int)) (fuel : Nat) (visited : List Int)
    (cur : Int) (s : SearchState) (h : visited.length = n) :
    (recurseBT n edges (fuel + 1) visited cur s).hamPath = visited := by
  subst h
  rw [recurseBT, if_pos rfl]
  split <;> split <;> rfl

/-- Witness for the amended C7 theorem at a concrete input. -/
theorem C7_amended_witness :
    ([1, 2] : List Int).length = 2 ∧
    (recurseBT 2 [(1, 2)] 1 [1, 2] 2 ⟨[], [], 0⟩).hamPath = [1, 2] :=
  ⟨rfl, C7_amended_full_length_always_recorded 2 [(1, 2)] 0 [1, 2] 2 ⟨[], [], 0⟩ rfl⟩

/-- Every listed edge joins adjacent endpoints. -/
theorem adj_of_edge {edges : List (Int × Int)} {e : Int × Int} (he : e ∈ edges) :
    Adj edges e.1 e.2 := by
  simp only [Adj, has_edge, List.any_eq_true, Bool.or_eq_true, Bool.and_eq_true,
    beq_iff_eq]
  exact ⟨e, he, Or.inl ⟨rfl, rfl⟩⟩

/-- Adjacency is symmetric. -/
theorem adj_swap {edges : List (Int × Int)} {a b : Int} (h : Adj edges a b) :
    Adj edges b a := by
  simp only [Adj, has_edge, List.any_eq_true, Bool.or_eq_true, Bool.and_eq_true,
    beq_iff_eq] at h ⊢
  rcases h with ⟨e, he, ⟨h1, h2⟩ | ⟨h1, h2⟩⟩
  · exact ⟨e, he, Or.inr ⟨h1, h2⟩⟩
  · exact ⟨e, he, Or.inl ⟨h1, h2⟩⟩

/-- Unfolding equation of `recurseBT` at positive fuel, with the two
intermediate states named as in the source. -/
theorem recurseBT_succ (n : Nat) (edges : List (Int × Int)) (fuel : Nat)
    (visited : List Int) (cur : Int) (s : SearchState) :
    recurseBT n edges (fuel + 1) visited cur s =
      (let s1 := if 3 ≤ visited.length && check_for_cycle edges cur visited.headI
          then { s with largest := max s.largest visited.length } else s
      if n = visited.length then
        (let s2 : SearchState := { s1 with hamPath := visited }
        if check_for_cycle edges cur visited.headI then
          { s2 with hamCycle := visited ++ [visited.headI],
                    largest := visited.length }
        else s2)
      else btExtend (recurseBT n edges fuel) cur visited edges s1) := rfl

/-- The edge-extension loop preserves the search invariant, provided every
edge it scans is a listed edge and the recursive call (given to it as
`recur`) preserves the invariant on every legal one-vertex extension of
`visited`. -/
theorem btExtend_inv {vertices : List Int} {edges : List (Int × Int)}
    (hE : ∀ e ∈ edges, e.1 ∈ vertices ∧ e.2 ∈ vertices)
    (cur : Int) (visited : List Int)
    (recur : List Int → Int → SearchState → SearchState)
    (hrec : ∀ (v : Int) (s : SearchState),
      v ∈ vertices → v ∉ visited → Adj edges cur v →
      InvS vertices edges s →
      InvS vertices edges (recur (visited ++ [v]) v s)) :
    ∀ (l : List (Int × Int)), (∀ e ∈ l, e ∈ edges) →
      ∀ s, InvS vertices edges s →
        InvS vertices edges (btExtend recur cur visited l s) := by
  intro l
  induction l with
  | nil => intro _ s hs; simpa [btExtend] using hs
  | cons e rest ihl =>
    intro hle s hs
    have hee : e ∈ edges := hle e (List.mem_cons_self e rest)
    have hrest : ∀ e' ∈ rest, e' ∈ edges :=
      fun e' h' => hle e' (List.mem_cons_of_mem e h')
    by_cases h1 : (e.2 == cur && !(visited.contains e.1)) = true
    · have h1' : e.2 = cur ∧ e.1 ∉ visited := by
        simpa using h1
      have hv : InvS vertices edges (recur (visited ++ [e.1]) e.1 s) := by
        refine hrec e.1 s (hE e hee).1 h1'.2 ?_ hs
        have := adj_swap (adj_of_edge hee)
        rwa [h1'.1] at this
      rw [btExtend, if_pos h1]
      dsimp only
      split
      · exact hv
      · exact ihl hrest _ hv
    · by_cases h2 : (e.1 == cur && !(visited.contains e.2)) = true
      · have h2' : e.1 = cur ∧ e.2 ∉ visited := by
          simpa using h2
        have hv : InvS vertices edges (recur (visited ++ [e.2]) e.2 s) := by
          refine hrec e.2 s (hE e hee).2 h2'.2 ?_ hs
          have := adj_of_edge hee
          rwa [h2'.1] at this
        rw [btExtend, if_neg h1, if_pos h2]
        dsimp only
        split
        · exact hv
        · exact ihl hrest _ hv
      · rw [btExtend, if_neg h1, if_neg h2]
        dsimp only
        exact ihl hrest s hs

/-- The recursive search preserves the invariant on every wellformed call:
`visited` is a non-empty duplicate-free chain of adjacent member vertices
ending in `cur`. -/
theorem recurseBT_inv {vertices : List Int} {edges : List (Int × Int)}
    (hE : ∀ e ∈ edges, e.1 ∈ vertices ∧ e.2 ∈ vertices) :
    ∀ (fuel : Nat) (visited : List Int) (cur : Int) (s : SearchState),
      visited ≠ [] → visited.Nodup → (∀ x ∈ visited, x ∈ vertices) →
      visited.getLast? = some cur → List.Chain' (Adj edges) visited →
      InvS vertices edges s →
      InvS vertices edges (recurseBT vertices.length edges fuel visited cur s) := by
  intro fuel
  induction fuel with
  | zero =>
    intro visited cur s _ _ _ _ _ hs
    simpa [recurseBT] using hs
  | succ fuel ih =>
    intro visited cur s hne hnd hsub hlast hchain hs
    have hlen : visited.length ≤ vertices.length :=
      (List.subperm_of_subset hnd hsub).length_le
    obtain ⟨hsle, hsiff, hspath, hscyc⟩ := hs
    have hcur : visited.getLastD 0 = cur := by
      rw [List.getLastD_eq_getLast?, hlast]
      rfl
    have hext : ∀ s', InvS vertices edges s' →
        InvS vertices edges
          (btExtend (recurseBT vertices.length edges fuel) cur visited edges s') := by
      intro s' hs'
      refine btExtend_inv hE cur visited _ ?_ edges (fun e he => he) s' hs'
      intro v t hv hnin hadj ht
      refine ih (visited ++ [v]) v t (by simp) ?_ ?_ (List.getLast?_concat visited) ?_ ht
      · rw [List.nodup_append]
        refine ⟨hnd, List.nodup_singleton v, ?_⟩
        intro a ha hav
        simp only [List.mem_singleton] at hav
        subst hav
        exact hnin ha
      · intro x hx
        rcases List.mem_append.mp hx with hx | hx
        · exact hsub x hx
        · simp only [List.mem_singleton] at hx
          subst hx
          exact hv
      · rw [List.chain'_append]
        refine ⟨hchain, List.chain'_singleton v, ?_⟩
        intro x hx y hy
        rw [hlast] at hx
        simp only [Option.mem_def, Option.some_inj] at hx
        simp only [List.head?_cons, Option.mem_def, Option.some_inj] at hy
        subst hx
        subst hy
        exact hadj
    rw [recurseBT_succ]
    dsimp only
    by_cases hchk : check_for_cycle edges cur visited.headI = true
    · have hadj : Adj edges (visited.getLastD 0) visited.headI := by
        rw [hcur]
        exact (check_for_cycle_eq_adj edges cur visited.headI).mp hchk
      by_cases hbase : vertices.length = visited.length
      · rw [if_pos hbase, if_pos hchk]
        refine ⟨hlen, iff_of_false (by simp) (fun h => h hbase.symm), ?_, ?_⟩
        · intro _
          exact ⟨hchain, hnd⟩
        · intro _
          exact ⟨hne, visited, hne, rfl, hchain, hnd, hadj⟩
      · rw [if_neg hbase]
        have hlt : visited.length < vertices.length :=
          lt_of_le_of_ne hlen fun h => hbase h.symm
        refine hext _ ?_
        split
        · refine ⟨max_le hsle hlt.le, ⟨?_, ?_⟩, hspath, hscyc⟩
          · intro hc hmax
            rcases max_choice s.largest visited.length with hm | hm
            · exact (hsiff.mp hc) (hm ▸ hmax)
            · exact absurd (hm ▸ hmax) hlt.ne
          · intro hne'
            apply hsiff.mpr
            intro hsn
            refine hne' ?_
            rw [hsn]
            exact max_eq_left hlt.le
        · exact ⟨hsle, hsiff, hspath, hscyc⟩
    · have hs1eq :
          (if (decide (3 ≤ visited.length) && check_for_cycle edges cur visited.headI)
              = true then { s with largest := max s.largest visited.length } else s)
            = s := by
        rw [if_neg]
        simp [hchk]
      by_cases hbase : vertices.length = visited.length
      · rw [if_pos hbase, if_neg hchk, hs1eq]
        exact ⟨hsle, hsiff, fun _ => ⟨hchain, hnd⟩, fun hc => ⟨hne, (hscyc hc).2⟩⟩
      · rw [if_neg hbase, hs1eq]
        exact hext s ⟨hsle, hsiff, hspath, hscyc⟩

/-- The invariant holds for the final state of the backtracking solver on
every valid input. -/
theorem btFinalState_inv {vertices : List Int} {edges : List (Int × Int)}
    (h : ValidInput vertices edges) :
    InvS vertices edges (btFinalState vertices edges) := by
  obtain ⟨hne, hnd, hE, _⟩ := h
  have hn0 : vertices.length ≠ 0 := fun h0 => hne (List.length_eq_zero.mp h0)
  have hstep : ∀ (l : List Int), (∀ v ∈ l, v ∈ vertices) →
      ∀ s, InvS vertices edges s →
        InvS vertices edges
          (btStartLoop
            (fun start s =>
              recurseBT vertices.length edges (vertices.length + 1) [start] start s)
            l s) := by
    intro l
    induction l with
    | nil => intro _ s hs; simpa [btStartLoop] using hs
    | cons v rest ihl =>
      intro hlv s hs
      have hv : InvS vertices edges
          (recurseBT vertices.length edges (vertices.length + 1) [v] v s) :=
        recurseBT_inv hE _ [v] v s (by simp) (List.nodup_singleton v)
          (by
            intro x hx
            simp only [List.mem_singleton] at hx
            rw [hx]
            exact hlv v (List.mem_cons_self v rest))
          (by simp) (List.chain'_singleton v) hs
      rw [btStartLoop]
      split
      · exact hv
      · exact ihl (fun u hu => hlv u (List.mem_cons_of_mem v hu)) _ hv
  have hinit : InvS vertices edges ⟨[], [], 0⟩ := by
    refine ⟨Nat.zero_le _, iff_of_true rfl fun h0 => hn0 h0.symm, ?_, ?_⟩
    · intro h0
      exact absurd rfl h0
    · intro h0
      exact absurd rfl h0
  exact hstep vertices (fun v hv => hv) _ hinit

/-- The backtracking result is assembled from `btFinalState`. -/
theorem hamilton_backtracking_eq (vertices : List Int) (edges : List (Int × Int)) :
    hamilton_backtracking vertices edges =
      { path_found := (btFinalState vertices edges).hamPath != []
        path := some (btFinalState vertices edges).hamPath
        cycle_found := (btFinalState vertices edges).hamCycle != []
        cycle := some (btFinalState vertices edges).hamCycle
        largest_cycle_size := (btFinalState vertices edges).largest } := rfl

/-- Every pick splits the list into the picked element and a remainder that
together permute the list. -/
theorem picks_perm {l : List Int} {x : Int} {r : List Int}
    (h : (x, r) ∈ picks l) : (x :: r).Perm l := by
  induction l generalizing x r with
  | nil => simp [picks] at h
  | cons a rest ih =>
    simp only [picks, List.mem_cons, List.mem_map] at h
    rcases h with h | ⟨p, hp, hpe⟩
    · cases h
      exact List.Perm.refl _
    · cases hpe
      exact (List.Perm.swap a p.1 p.2).trans ((ih hp).cons a)

/-- Everything `backtrack` emits extends `current` by a permutation of
`remaining`. -/
theorem genPermsAux_mem :
    ∀ (fuel : Nat) (remaining current p : List Int),
      p ∈ genPermsAux fuel current remaining →
      ∃ q, p = current ++ q ∧ q.Perm remaining := by
  intro fuel
  induction fuel with
  | zero =>
    intro remaining current p hp
    cases remaining with
    | nil =>
      simp only [genPermsAux, List.mem_singleton] at hp
      exact ⟨[], by simp [hp], List.Perm.refl _⟩
    | cons a rest => simp [genPermsAux] at hp
  | succ fuel ih =>
    intro remaining current p hp
    cases remaining with
    | nil =>
      simp only [genPermsAux, List.mem_singleton] at hp
      exact ⟨[], by simp [hp], List.Perm.refl _⟩
    | cons a rest =>
      simp only [genPermsAux, List.mem_flatten, List.mem_map] at hp
      obtain ⟨L, ⟨pr, hpr, hL⟩, hpL⟩ := hp
      subst hL
      obtain ⟨q, hq1, hq2⟩ := ih pr.2 (current ++ [pr.1]) p hpL
      refine ⟨pr.1 :: q, by simp [hq1], ?_⟩
      exact (hq2.cons pr.1).trans (picks_perm hpr)

/-- Every generated permutation is a permutation of the input list. -/
theorem generate_permutations_mem {arr p : List Int}
    (h : p ∈ generate_permutations arr) : p.Perm arr := by
  obtain ⟨q, hq1, hq2⟩ := genPermsAux_mem arr.length arr [] p h
  rw [hq1]
  simpa using hq2

/-- The brute-force result is assembled from the phase-1 state and the final
largest-cycle figure. -/
theorem hamilton_bruteforce_eq (vertices : List Int) (edges : List (Int × Int)) :
    hamilton_bruteforce vertices edges =
      { path_found := (bfPhase1State vertices edges).hamPath != []
        path := if (bfPhase1State vertices edges).hamPath != [] then
            some (bfPhase1State vertices edges).hamPath else none
        cycle_found := (bfPhase1State vertices edges).hamCycle != []
        cycle := if (bfPhase1State vertices edges).hamCycle != [] then
            some (bfPhase1State vertices edges).hamCycle else none
        largest_cycle_size := bfFinalLargest vertices edges } := rfl

/-- The permutation phase of the brute-force solver preserves the search
invariant. -/
theorem bfPhase1State_inv {vertices : List Int} {edges : List (Int × Int)}
    (h : ValidInput vertices edges) :
    InvS vertices edges (bfPhase1State vertices edges) := by
  obtain ⟨hne, hnd, _, _⟩ := h
  have hn0 : vertices.length ≠ 0 := fun h0 => hne (List.length_eq_zero.mp h0)
  unfold bfPhase1State
  refine List.foldlRecOn (generate_permutations vertices)
    (bfPermStep edges vertices.length) ⟨[], [], 0⟩
    ⟨Nat.zero_le _, iff_of_true rfl fun h0 => hn0 h0.symm,
      fun h0 => absurd rfl h0, fun h0 => absurd rfl h0⟩ ?_
  intro s hs perm hperm
  have hpv : perm.Perm vertices := generate_permutations_mem hperm
  have hplen : perm.length = vertices.length := hpv.length_eq
  have hpnd : perm.Nodup := hpv.nodup_iff.mpr hnd
  have hpne : perm ≠ [] := by
    intro h0
    rw [h0] at hplen
    exact hn0 hplen.symm
  obtain ⟨hsle, hsiff, hspath, hscyc⟩ := hs
  unfold bfPermStep
  by_cases hval : is_valid_path edges perm = true
  · rw [if_pos hval]
    have hchain : List.Chain' (Adj edges) perm :=
      (is_valid_path_iff_chain edges perm).mp hval
    dsimp only
    set t : SearchState :=
      (if s.hamPath = [] then { s with hamPath := perm } else s) with hteq
    have htc : t.hamCycle = s.hamCycle := by
      rw [hteq]; split <;> rfl
    have htl : t.largest = s.largest := by
      rw [hteq]; split <;> rfl
    have htp : t.hamPath ≠ [] ∧
        List.Chain' (Adj edges) t.hamPath ∧ t.hamPath.Nodup := by
      rw [hteq]
      split
      · exact ⟨hpne, hchain, hpnd⟩
      · next hps => exact ⟨hps, (hspath hps).1, (hspath hps).2⟩
    by_cases hclose :
        (decide (3 ≤ perm.length) && has_edge edges (perm.getLastD 0) perm.headI)
          = true
    · rw [if_pos hclose]
      obtain ⟨h3, hedge⟩ :
          3 ≤ perm.length ∧ has_edge edges (perm.getLastD 0) perm.headI = true := by
        simpa using hclose
      by_cases hcyc : perm.length = vertices.length ∧ t.hamCycle = []
      · rw [if_pos hcyc]
        have hmax : max t.largest perm.length = vertices.length := by
          rw [htl, hplen]
          exact max_eq_right (hplen ▸ hsle)
        refine ⟨?_, iff_of_false (by simp) fun hL => hL hmax, ?_, ?_⟩
        · exact le_of_eq hmax
        · intro _
          exact ⟨htp.2.1, htp.2.2⟩
        · intro _
          exact ⟨htp.1, perm, hpne, rfl, hchain, hpnd, hedge⟩
      · rw [if_neg hcyc]
        have hcne : t.hamCycle ≠ [] := fun hc => hcyc ⟨hplen, hc⟩
        have hsn : s.largest = vertices.length := by
          by_contra hL
          exact hcne (htc ▸ hsiff.mpr hL)
        have hmax : max t.largest perm.length = vertices.length := by
          rw [htl, hsn, hplen]
          exact max_self _
        refine ⟨le_of_eq hmax, iff_of_false ?_ fun hL => hL hmax, ?_, ?_⟩
        · exact hcne
        · intro _
          exact ⟨htp.2.1, htp.2.2⟩
        · intro _
          obtain ⟨_, hex⟩ := hscyc (htc ▸ hcne)
          exact ⟨htp.1, htc ▸ hex⟩
    · rw [if_neg hclose]
      refine ⟨htl ▸ hsle, ?_, fun _ => ⟨htp.2.1, htp.2.2⟩, ?_⟩
      · rw [htc, htl]
        exact hsiff
      · intro hc
        obtain ⟨_, hex⟩ := hscyc (htc ▸ hc)
        exact ⟨htp.1, htc ▸ hex⟩
  · rw [if_neg hval]
    exact ⟨hsle, hsiff, hspath, hscyc⟩

/-- The path-recording step never changes the recorded largest size. -/
theorem bfS1_largest (s : SearchState) (x : List Int) :
    ((if s.hamPath = [] then { s with hamPath := x } else s) : SearchState).largest
      = s.largest := by
  split <;> rfl

/-- One permutation step never decreases the recorded largest size. -/
theorem bfPermStep_largest_mono (edges : List (Int × Int)) (n : Nat)
    (s : SearchState) (x : List Int) :
    s.largest ≤ (bfPermStep edges n s x).largest := by
  unfold bfPermStep
  dsimp only
  split
  · split
    · split
      · split
        · exact le_max_left _ _
        · exact le_max_left _ _
      · split
        · exact le_max_left _ _
        · exact le_max_left _ _
    · split
      · exact le_refl _
      · exact le_refl _
  · exact le_refl _

/-- The permutation fold never decreases the recorded largest size. -/
theorem bfFold_largest_mono (edges : List (Int × Int)) (n : Nat) :
    ∀ (L : List (List Int)) (s : SearchState),
      s.largest ≤ (L.foldl (bfPermStep edges n) s).largest := by
  intro L
  induction L with
  | nil => intro s; exact le_refl _
  | cons x L' ih =>
    intro s
    exact le_trans (bfPermStep_largest_mono edges n s x) (ih _)

/-- If the fold scans a valid closing permutation of length at least 3, the
final recorded largest size is at least that permutation's length. -/
theorem bfFold_largest_ge (edges : List (Int × Int)) (n : Nat) :
    ∀ (L : List (List Int)) (s : SearchState) (q : List Int),
      q ∈ L → is_valid_path edges q = true →
      (decide (3 ≤ q.length) && has_edge edges (q.getLastD 0) q.headI) = true →
      q.length ≤ (L.foldl (bfPermStep edges n) s).largest := by
  intro L
  induction L with
  | nil => intro s q hq; simp at hq
  | cons x L' ih =>
    intro s q hq hval hclose
    rcases List.mem_cons.mp hq with hq | hq
    · subst hq
      refine le_trans ?_ (bfFold_largest_mono edges n L' _)
      unfold bfPermStep
      rw [if_pos hval, if_pos hclose]
      dsimp only
      split <;> split <;> exact le_max_right _ _
    · exact ih _ q hq hval hclose

/-- Everything `backtrack_subset` emits has at least 3 elements and extends
`current` by an index-increasing selection from the remaining suffix. -/
theorem subsetsFrom_mem :
    ∀ (fuel : Nat) (current rest s : List Int),
      s ∈ subsetsFrom fuel current rest →
      3 ≤ s.length ∧ ∃ t, s = current ++ t ∧ t.Sublist rest := by
  intro fuel
  induction fuel with
  | zero =>
    intro current rest s hs
    rw [subsetsFrom] at hs
    split at hs
    · next h3 =>
      simp only [List.mem_singleton] at hs
      subst hs
      exact ⟨h3, [], by simp, List.nil_sublist rest⟩
    · simp at hs
  | succ fuel ih =>
    intro current rest s hs
    have hloop : ∀ (rest' current' s' : List Int),
        s' ∈ subsetsLoop (subsetsFrom fuel) current' rest' →
        3 ≤ s'.length ∧ ∃ t, s' = current' ++ t ∧ t.Sublist rest' := by
      intro rest'
      induction rest' with
      | nil => intro current' s' hs'; simp [subsetsLoop] at hs'
      | cons a rest'' ihr =>
        intro current' s' hs'
        rw [subsetsLoop] at hs'
        rcases List.mem_append.mp hs' with hs' | hs'
        · obtain ⟨h3, t, ht1, ht2⟩ := ih (current' ++ [a]) rest'' s' hs'
          refine ⟨h3, a :: t, ?_, List.cons_sublist_cons.mpr ht2⟩
          rw [ht1, List.append_assoc]
          rfl
        · obtain ⟨h3, t, ht1, ht2⟩ := ihr current' s' hs'
          exact ⟨h3, t, ht1, ht2.trans (List.sublist_cons_self a rest'')⟩
    rw [subsetsFrom] at hs
    rcases List.mem_append.mp hs with hs | hs
    · split at hs
      · next h3 =>
        simp only [List.mem_singleton] at hs
        subst hs
        exact ⟨h3, [], by simp, List.nil_sublist rest⟩
      · simp at hs
    · exact hloop rest current s hs

/-- Every generated subset has at least 3 elements and is an
index-increasing selection from the vertex list. -/
theorem generate_subsets_mem {arr s : List Int}
    (h : s ∈ generate_subsets arr) : 3 ≤ s.length ∧ s.Sublist arr := by
  obtain ⟨h3, t, ht1, ht2⟩ := subsetsFrom_mem (arr.length + 1) [] arr s h
  refine ⟨h3, ?_⟩
  rw [ht1]
  simpa using ht2

/-- The subset-refinement fold stays below `m` when it starts below `m` and
every closing permutation it meets is shorter than `m`. -/
theorem bfSubsetFold_lt {edges : List (Int × Int)} {m : Nat} :
    ∀ (L : List (List Int)) (acc : Nat), acc < m →
      (∀ q ∈ L,
        (is_valid_path edges q && has_edge edges (q.getLastD 0) q.headI) = true →
        q.length < m) →
      L.foldl (bfSubsetStep edges) acc < m := by
  intro L
  induction L with
  | nil => intro acc hacc _; simpa using hacc
  | cons x L' ih =>
    intro acc hacc hq
    refine ih _ ?_ fun q hq' hfire => hq q (List.mem_cons_of_mem x hq') hfire
    unfold bfSubsetStep
    split
    · next hcond => exact max_lt hacc (hq x (List.mem_cons_self x L') hcond)
    · exact hacc

/-- The nested subset/permutation fold stays below `m` under the same
conditions. -/
theorem bfPhase2Fold_lt {edges : List (Int × Int)} {m : Nat} :
    ∀ (subs : List (List Int)) (acc : Nat), acc < m →
      (∀ sub ∈ subs, ∀ q ∈ generate_permutations sub,
        (is_valid_path edges q && has_edge edges (q.getLastD 0) q.headI) = true →
        q.length < m) →
      subs.foldl
        (fun acc subset =>
          (generate_permutations subset).foldl (bfSubsetStep edges) acc)
        acc < m := by
  intro subs
  induction subs with
  | nil => intro acc hacc _; simpa using hacc
  | cons sub subs' ih =>
    intro acc hacc hk
    refine ih _ ?_ fun s hs q hq hf => hk s (List.mem_cons_of_mem sub hs) q hq hf
    exact bfSubsetFold_lt _ acc hacc
      (fun q hq hf => hk sub (List.mem_cons_self sub subs') q hq hf)

/-- C4: on every valid input, both algorithms return a `largest_cycle_size`
between 0 and the vertex count, and it equals the vertex count exactly when
`cycle_found` is true. -/
theorem C4_largest_cycle_size_bounds (vertices : List Int)
    (edges : List (Int × Int)) (h : ValidInput vertices edges) :
    (0 ≤ (hamilton_backtracking vertices edges).largest_cycle_size ∧
      (hamilton_backtracking vertices edges).largest_cycle_size ≤ vertices.length ∧
      ((hamilton_backtracking vertices edges).largest_cycle_size = vertices.length ↔
        (hamilton_backtracking vertices edges).cycle_found = true)) ∧
    (0 ≤ (hamilton_bruteforce vertices edges).largest_cycle_size ∧
      (hamilton_bruteforce vertices edges).largest_cycle_size ≤ vertices.length ∧
      ((hamilton_bruteforce vertices edges).largest_cycle_size = vertices.length ↔
        (hamilton_bruteforce vertices edges).cycle_found = true)) := by
  constructor
  · obtain ⟨hle, hiff, _, _⟩ := btFinalState_inv h
    refine ⟨Nat.zero_le _, hle, ?_⟩
    show (btFinalState vertices edges).largest = vertices.length ↔
      ((btFinalState vertices edges).hamCycle != []) = true
    rw [bne_iff_ne]
    constructor
    · intro hL hc
      exact hiff.mp hc hL
    · intro hc
      by_contra hL
      exact hc (hiff.mpr hL)
  · obtain ⟨hle, hiff, _, _⟩ := bfPhase1State_inv h
    by_cases hcase : (bfPhase1State vertices edges).largest < vertices.length
    · have hkey : ∀ sub ∈ generate_subsets vertices,
          ∀ q ∈ generate_permutations sub,
          (is_valid_path edges q && has_edge edges (q.getLastD 0) q.headI) = true →
          q.length < vertices.length := by
        intro sub hsub q hq hfire
        obtain ⟨h3s, hsubl⟩ := generate_subsets_mem hsub
        have hql : q.length = sub.length := (generate_permutations_mem hq).length_eq
        rcases lt_or_eq_of_le hsubl.length_le with hlt' | heq'
        · omega
        · exfalso
          have hsv : sub = vertices := hsubl.eq_of_length heq'
          obtain ⟨hval, hedge⟩ : is_valid_path edges q = true ∧
              has_edge edges (q.getLastD 0) q.headI = true := by
            simpa using hfire
          have h3q : 3 ≤ q.length := by omega
          have hge : q.length ≤ (bfPhase1State vertices edges).largest :=
            bfFold_largest_ge edges vertices.length
              (generate_permutations vertices) ⟨[], [], 0⟩ q (hsv ▸ hq) hval
              (by
                rw [Bool.and_eq_true, decide_eq_true_eq]
                exact ⟨h3q, hedge⟩)
          omega
      have hlt : bfFinalLargest vertices edges < vertices.length := by
        unfold bfFinalLargest
        rw [if_pos hcase]
        exact bfPhase2Fold_lt _ _ hcase hkey
      have hcyc0 : (bfPhase1State vertices edges).hamCycle = [] :=
        hiff.mpr (Nat.ne_of_lt hcase)
      refine ⟨Nat.zero_le _, hlt.le, iff_of_false (Nat.ne_of_lt hlt) ?_⟩
      intro hbne
      have : ((bfPhase1State vertices edges).hamCycle != []) = true := hbne
      rw [bne_iff_ne] at this
      exact this hcyc0
    · have heq : (bfPhase1State vertices edges).largest = vertices.length :=
        le_antisymm hle (not_lt.mp hcase)
      have hfin : bfFinalLargest vertices edges = vertices.length := by
        unfold bfFinalLargest
        rw [if_neg hcase]
        exact heq
      have hcne : (bfPhase1State vertices edges).hamCycle ≠ [] := by
        intro hc
        exact hiff.mp hc heq
      refine ⟨Nat.zero_le _, le_of_eq hfin, iff_of_true hfin ?_⟩
      show ((bfPhase1State vertices edges).hamCycle != []) = true
      rw [bne_iff_ne]
      exact hcne

/-- Witness for C4 at a concrete valid input (the triangle graph). -/
theorem C4_witness :
    (0 ≤ (hamilton_backtracking [1, 2, 3] [(1, 2), (2, 3), (1, 3)]).largest_cycle_size ∧
      (hamilton_backtracking [1, 2, 3] [(1, 2), (2, 3), (1, 3)]).largest_cycle_size ≤
        ([1, 2, 3] : List Int).length ∧
      ((hamilton_backtracking [1, 2, 3] [(1, 2), (2, 3), (1, 3)]).largest_cycle_size =
          ([1, 2, 3] : List Int).length ↔
        (hamilton_backtracking [1, 2, 3] [(1, 2), (2, 3), (1, 3)]).cycle_found = true)) ∧
    (0 ≤ (hamilton_bruteforce [1, 2, 3] [(1, 2), (2, 3), (1, 3)]).largest_cycle_size ∧
      (hamilton_bruteforce [1, 2, 3] [(1, 2), (2, 3), (1, 3)]).largest_cycle_size ≤
        ([1, 2, 3] : List Int).length ∧
      ((hamilton_bruteforce [1, 2, 3] [(1, 2), (2, 3), (1, 3)]).largest_cycle_size =
          ([1, 2, 3] : List Int).length ↔
        (hamilton_bruteforce [1, 2, 3] [(1, 2), (2, 3), (1, 3)]).cycle_found = true)) :=
  C4_largest_cycle_size_bounds [1, 2, 3] [(1, 2), (2, 3), (1, 3)] (by decide)

/-- C10: on every valid input and for both algorithms, a reported
Hamiltonian cycle comes with a reported Hamiltonian path. -/
theorem C10_cycle_implies_path (vertices : List Int) (edges : List (Int × Int))
    (h : ValidInput vertices edges) :
    ((hamilton_backtracking vertices edges).cycle_found = true →
      (hamilton_backtracking vertices edges).path_found = true) ∧
    ((hamilton_bruteforce vertices edges).cycle_found = true →
      (hamilton_bruteforce vertices edges).path_found = true) := by
  constructor
  · obtain ⟨_, _, _, hcyc⟩ := btFinalState_inv h
    intro hc
    have hc' : (btFinalState vertices edges).hamCycle ≠ [] := by
      have h2 : ((btFinalState vertices edges).hamCycle != []) = true := hc
      rwa [bne_iff_ne] at h2
    show ((btFinalState vertices edges).hamPath != []) = true
    rw [bne_iff_ne]
    exact (hcyc hc').1
  · obtain ⟨_, _, _, hcyc⟩ := bfPhase1State_inv h
    intro hc
    have hc' : (bfPhase1State vertices edges).hamCycle ≠ [] := by
      have h2 : ((bfPhase1State vertices edges).hamCycle != []) = true := hc
      rwa [bne_iff_ne] at h2
    show ((bfPhase1State vertices edges).hamPath != []) = true
    rw [bne_iff_ne]
    exact (hcyc hc').1

/-- Witness for C10 at a concrete valid input (the triangle graph). -/
theorem C10_witness :
    ((hamilton_backtracking [1, 2, 3] [(1, 2), (2, 3), (1, 3)]).cycle_found = true →
      (hamilton_backtracking [1, 2, 3] [(1, 2), (2, 3), (1, 3)]).path_found = true) ∧
    ((hamilton_bruteforce [1, 2, 3] [(1, 2), (2, 3), (1, 3)]).cycle_found = true →
      (hamilton_bruteforce [1, 2, 3] [(1, 2), (2, 3), (1, 3)]).path_found = true) :=
  C10_cycle_implies_path [1, 2, 3] [(1, 2), (2, 3), (1, 3)] (by decide)

/-- A recorded cycle of the invariant's shape satisfies the spec's
cycle-closure property. -/
theorem goodCycle_of_closed {edges : List (Int × Int)} {c : List Int}
    (h : ∃ p, p ≠ [] ∧ c = p ++ [p.headI] ∧ List.Chain' (Adj edges) p ∧
      p.Nodup ∧ Adj edges (p.getLastD 0) p.headI) :
    c ≠ [] ∧ c.getLast? = c.head? ∧ List.Chain' (Adj edges) c.dropLast ∧
      c.dropLast.Nodup ∧ Adj edges (c.dropLast.getLastD 0) c.dropLast.headI := by
  obtain ⟨p, hpne, hc, hchain, hnd, hadj⟩ := h
  subst hc
  have hdrop : (p ++ [p.headI]).dropLast = p := List.dropLast_concat
  refine ⟨by simp, ?_, ?_, ?_, ?_⟩
  · rw [List.getLast?_concat]
    cases p with
    | nil => exact absurd rfl hpne
    | cons a t => rfl
  · rw [hdrop]; exact hchain
  · rw [hdrop]; exact hnd
  · rw [hdrop]; exact hadj

/-- C6: on every valid input and for both algorithms, a found path is a
sequence of pairwise-adjacent distinct vertices, and a found cycle ends in
its own first element and, with that duplicate removed, is such a path
whose last element is adjacent to its first. -/
theorem C6_path_cycle_validity (vertices : List Int) (edges : List (Int × Int))
    (h : ValidInput vertices edges) :
    ResultPathsOk edges (hamilton_backtracking vertices edges) ∧
    ResultPathsOk edges (hamilton_bruteforce vertices edges) := by
  constructor
  · obtain ⟨_, _, hpath, hcyc⟩ := btFinalState_inv h
    constructor
    · intro hp
      have hp' : (btFinalState vertices edges).hamPath ≠ [] := by
        have h2 : ((btFinalState vertices edges).hamPath != []) = true := hp
        rwa [bne_iff_ne] at h2
      exact ⟨(btFinalState vertices edges).hamPath, rfl,
        (hpath hp').1, (hpath hp').2⟩
    · intro hc
      have hc' : (btFinalState vertices edges).hamCycle ≠ [] := by
        have h2 : ((btFinalState vertices edges).hamCycle != []) = true := hc
        rwa [bne_iff_ne] at h2
      obtain ⟨hcne, hlh, hch, hnd, hadj⟩ := goodCycle_of_closed (hcyc hc').2
      exact ⟨(btFinalState vertices edges).hamCycle, rfl, hcne, hlh, hch, hnd, hadj⟩
  · obtain ⟨_, _, hpath, hcyc⟩ := bfPhase1State_inv h
    constructor
    · intro hp
      have hp2 : ((bfPhase1State vertices edges).hamPath != []) = true := hp
      have hp' : (bfPhase1State vertices edges).hamPath ≠ [] := by
        rwa [bne_iff_ne] at hp2
      refine ⟨(bfPhase1State vertices edges).hamPath, ?_,
        (hpath hp').1, (hpath hp').2⟩
      show (if ((bfPhase1State vertices edges).hamPath != []) = true then
          some (bfPhase1State vertices edges).hamPath else none)
        = some (bfPhase1State vertices edges).hamPath
      rw [if_pos hp2]
    · intro hc
      have hc2 : ((bfPhase1State vertices edges).hamCycle != []) = true := hc
      have hc' : (bfPhase1State vertices edges).hamCycle ≠ [] := by
        rwa [bne_iff_ne] at hc2
      obtain ⟨hcne, hlh, hch, hnd, hadj⟩ := goodCycle_of_closed (hcyc hc').2
      refine ⟨(bfPhase1State vertices edges).hamCycle, ?_, hcne, hlh, hch, hnd, hadj⟩
      show (if ((bfPhase1State vertices edges).hamCycle != []) = true then
          some (bfPhase1State vertices edges).hamCycle else none)
        = some (bfPhase1State vertices edges).hamCycle
      rw [if_pos hc2]

/-- Witness for C6 at a concrete valid input (the triangle graph). -/
theorem C6_witness :
    ResultPathsOk [(1, 2), (2, 3), (1, 3)]
      (hamilton_backtracking [1, 2, 3] [(1, 2), (2, 3), (1, 3)]) ∧
    ResultPathsOk [(1, 2), (2, 3), (1, 3)]
      (hamilton_bruteforce [1, 2, 3] [(1, 2), (2, 3), (1, 3)]) :=
  C6_path_cycle_validity [1, 2, 3] [(1, 2), (2, 3), (1, 3)] (by decide)

/-- The path-recording step never changes the recorded cycle. -/
theorem bfS1_hamCycle (s : SearchState) (x : List Int) :
    ((if s.hamPath = [] then { s with hamPath := x } else s) : SearchState).hamCycle
      = s.hamCycle := by
  split <;> rfl

/-- An invalid permutation leaves the state unchanged. -/
theorem bfPermStep_skip {edges : List (Int × Int)} {n : Nat} {s : SearchState}
    {x : List Int} (h : is_valid_path edges x = false) :
    bfPermStep edges n s x = s := by
  unfold bfPermStep
  rw [if_neg]
  simp [h]

/-- Once a path is recorded, later permutations never change it. -/
theorem bfPermStep_path_stable {edges : List (Int × Int)} {n : Nat}
    {s : SearchState} {x : List Int} (h : s.hamPath ≠ []) :
    (bfPermStep edges n s x).hamPath = s.hamPath := by
  unfold bfPermStep
  dsimp only
  split
  · split
    · split
      · rfl
      · rfl
    · rfl
  · rfl

/-- The first valid permutation is recorded as the path. -/
theorem bfPermStep_path_set {edges : List (Int × Int)} {n : Nat}
    {s : SearchState} {x : List Int} (hval : is_valid_path edges x = true)
    (h : s.hamPath = []) : (bfPermStep edges n s x).hamPath = x := by
  unfold bfPermStep
  rw [if_pos hval]
  dsimp only
  rw [if_pos h]
  split
  · split
    · rfl
    · rfl
  · rfl

/-- A recorded path survives the whole fold. -/
theorem bfFold_path_stable {edges : List (Int × Int)} {n : Nat} :
    ∀ (L : List (List Int)) (s : SearchState), s.hamPath ≠ [] →
      (L.foldl (bfPermStep edges n) s).hamPath = s.hamPath := by
  intro L
  induction L with
  | nil => intro s _; rfl
  | cons x L' ih =>
    intro s h
    have h1 : (bfPermStep edges n s x).hamPath = s.hamPath :=
      bfPermStep_path_stable h
    rw [List.foldl_cons, ih _ (by rw [h1]; exact h), h1]

/-- Starting from an empty path, the fold records exactly the first valid
permutation of the scanned list (or nothing). -/
theorem bfFold_path_first {edges : List (Int × Int)} {n : Nat} :
    ∀ (L : List (List Int)) (s : SearchState), s.hamPath = [] →
      (∀ x ∈ L, x ≠ []) →
      (L.foldl (bfPermStep edges n) s).hamPath =
        ((L.find? fun p => is_valid_path edges p).getD []) := by
  intro L
  induction L with
  | nil => intro s h _; simpa using h
  | cons x L' ih =>
    intro s h hne
    rw [List.foldl_cons]
    by_cases hval : is_valid_path edges x = true
    · have hset : (bfPermStep edges n s x).hamPath = x :=
        bfPermStep_path_set hval h
      have hxne : x ≠ [] := hne x (List.mem_cons_self x L')
      rw [bfFold_path_stable L' _ (by rw [hset]; exact hxne), hset,
        List.find?_cons_of_pos _ hval]
      rfl
    · have hx : is_valid_path edges x = false := by
        cases hb : is_valid_path edges x
        · rfl
        · exact absurd hb hval
      rw [bfPermStep_skip hx,
        ih s h (fun y hy => hne y (List.mem_cons_of_mem x hy)),
        List.find?_cons_of_neg _ hval]

/-- Once a cycle is recorded, later permutations never change it. -/
theorem bfPermStep_cycle_stable {edges : List (Int × Int)} {n : Nat}
    {s : SearchState} {x : List Int} (h : s.hamCycle ≠ []) :
    (bfPermStep edges n s x).hamCycle = s.hamCycle := by
  unfold bfPermStep
  dsimp only
  split
  · rw [bfS1_hamCycle]
    split
    · rw [if_neg fun hc => h hc.2]
    · exact bfS1_hamCycle s x
  · rfl

/-- The first valid closing full-length permutation is recorded as the
cycle, closed by appending its first vertex. -/
theorem bfPermStep_cycle_set {edges : List (Int × Int)} {n : Nat}
    {s : SearchState} {x : List Int} (hval : is_valid_path edges x = true)
    (hclose : (decide (3 ≤ x.length) && has_edge edges (x.getLastD 0) x.headI)
      = true)
    (hn : x.length = n) (h : s.hamCycle = []) :
    (bfPermStep edges n s x).hamCycle = x ++ [x.headI] := by
  unfold bfPermStep
  rw [if_pos hval]
  dsimp only
  rw [if_pos hclose]
  have hcond : x.length = n ∧
      ((if s.hamPath = [] then { s with hamPath := x } else s) :
        SearchState).hamCycle = [] :=
    ⟨hn, by rw [bfS1_hamCycle]; exact h⟩
  rw [if_pos hcond]

/-- A permutation failing the cycle test leaves the recorded cycle
unchanged. -/
theorem bfPermStep_cycle_keep {edges : List (Int × Int)} {n : Nat}
    {s : SearchState} {x : List Int}
    (h : ¬(is_valid_path edges x &&
        (decide (3 ≤ x.length) && has_edge edges (x.getLastD 0) x.headI) &&
        decide (x.length = n)) = true) :
    (bfPermStep edges n s x).hamCycle = s.hamCycle := by
  unfold bfPermStep
  dsimp only
  by_cases hval : is_valid_path edges x = true
  · rw [if_pos hval]
    by_cases hclose :
        (decide (3 ≤ x.length) && has_edge edges (x.getLastD 0) x.headI) = true
    · rw [if_pos hclose]
      have hn : x.length ≠ n := by
        intro hn
        rw [hval, hclose] at h
        simp [hn] at h
      rw [if_neg fun hc => hn hc.1]
      exact bfS1_hamCycle s x
    · rw [if_neg hclose]
      exact bfS1_hamCycle s x
  · rw [if_neg hval]

/-- A recorded cycle survives the whole fold. -/
theorem bfFold_cycle_stable {edges : List (Int × Int)} {n : Nat} :
    ∀ (L : List (List Int)) (s : SearchState), s.hamCycle ≠ [] →
      (L.foldl (bfPermStep edges n) s).hamCycle = s.hamCycle := by
  intro L
  induction L with
  | nil => intro s _; rfl
  | cons x L' ih =>
    intro s h
    have h1 : (bfPermStep edges n s x).hamCycle = s.hamCycle :=
      bfPermStep_cycle_stable h
    rw [List.foldl_cons, ih _ (by rw [h1]; exact h), h1]

/-- Starting from an empty cycle, the fold records exactly the first valid
closing full-length permutation of the scanned list, closed by its first
vertex (or nothing). -/
theorem bfFold_cycle_first {edges : List (Int × Int)} {n : Nat} :
    ∀ (L : List (List Int)) (s : SearchState), s.hamCycle = [] →
      (L.foldl (bfPermStep edges n) s).hamCycle =
        (((L.find? fun p => is_valid_path edges p &&
            (decide (3 ≤ p.length) && has_edge edges (p.getLastD 0) p.headI) &&
            decide (p.length = n)).map fun p => p ++ [p.headI]).getD []) := by
  intro L
  induction L with
  | nil => intro s h; simpa using h
  | cons x L' ih =>
    intro s h
    rw [List.foldl_cons]
    by_cases hpred : (is_valid_path edges x &&
        (decide (3 ≤ x.length) && has_edge edges (x.getLastD 0) x.headI) &&
        decide (x.length = n)) = true
    · obtain ⟨⟨hval, hclose⟩, hn⟩ :
          (is_valid_path edges x = true ∧
            (decide (3 ≤ x.length) && has_edge edges (x.getLastD 0) x.headI)
              = true) ∧ x.length = n := by
        rw [Bool.and_eq_true, Bool.and_eq_true, decide_eq_true_eq] at hpred
        exact hpred
      have hset : (bfPermStep edges n s x).hamCycle = x ++ [x.headI] :=
        bfPermStep_cycle_set hval hclose hn h
      rw [bfFold_cycle_stable L' _ (by rw [hset]; simp), hset,
        @List.find?_cons_of_pos _ (fun p => is_valid_path edges p &&
          (decide (3 ≤ p.length) && has_edge edges (p.getLastD 0) p.headI) &&
          decide (p.length = n)) x L' hpred]
      rfl
    · have hkeep : (bfPermStep edges n s x).hamCycle = s.hamCycle :=
        bfPermStep_cycle_keep hpred
      rw [ih _ (by rw [hkeep]; exact h),
        @List.find?_cons_of_neg _ (fun p => is_valid_path edges p &&
          (decide (3 ≤ p.length) && has_edge edges (p.getLastD 0) p.headI) &&
          decide (p.length = n)) x L' hpred]

/-- C8: on every non-empty vertex list, the brute-force solver's recorded
Hamiltonian path is the first valid permutation in the deterministic
generation order of `generate_permutations`, and its recorded Hamiltonian
cycle is the first valid closing permutation of full length (at least 3, as
the source requires), closed by appending its first vertex. -/
theorem C8_bruteforce_first_valid (vertices : List Int)
    (edges : List (Int × Int)) (h : vertices ≠ []) :
    (hamilton_bruteforce vertices edges).path
        = (generate_permutations vertices).find? (fun p => is_valid_path edges p) ∧
    (hamilton_bruteforce vertices edges).cycle
        = ((generate_permutations vertices).find? fun p =>
            is_valid_path edges p &&
            (decide (3 ≤ p.length) && has_edge edges (p.getLastD 0) p.headI) &&
            decide (p.length = vertices.length)).map (fun p => p ++ [p.headI]) := by
  have hne : ∀ x ∈ generate_permutations vertices, x ≠ [] := by
    intro x hx h0
    have hl := (generate_permutations_mem hx).length_eq
    rw [h0] at hl
    exact h (List.length_eq_zero.mp hl.symm)
  have hpath : (bfPhase1State vertices edges).hamPath =
      ((generate_permutations vertices).find? fun p => is_valid_path edges p).getD
        [] :=
    bfFold_path_first (generate_permutations vertices) ⟨[], [], 0⟩ rfl hne
  have hcycle : (bfPhase1State vertices edges).hamCycle =
      (((generate_permutations vertices).find? fun p => is_valid_path edges p &&
          (decide (3 ≤ p.length) && has_edge edges (p.getLastD 0) p.headI) &&
          decide (p.length = vertices.length)).map fun p => p ++ [p.headI]).getD
        [] :=
    bfFold_cycle_first (generate_permutations vertices) ⟨[], [], 0⟩ rfl
  constructor
  · show (if ((bfPhase1State vertices edges).hamPath != []) = true then
        some (bfPhase1State vertices edges).hamPath else none) = _
    cases hfind : (generate_permutations vertices).find? fun p =>
        is_valid_path edges p with
    | none =>
      rw [hfind] at hpath
      rw [if_neg (by rw [hpath]; simp)]
    | some p =>
      have hpne : p ≠ [] := hne p (List.mem_of_find?_eq_some hfind)
      rw [hfind] at hpath
      rw [if_pos (by rw [hpath]; simpa using hpne), hpath]
      rfl
  · show (if ((bfPhase1State vertices edges).hamCycle != []) = true then
        some (bfPhase1State vertices edges).hamCycle else none) = _
    cases hfind : (generate_permutations vertices).find? fun p =>
        is_valid_path edges p &&
        (decide (3 ≤ p.length) && has_edge edges (p.getLastD 0) p.headI) &&
        decide (p.length = vertices.length) with
    | none =>
      rw [hfind] at hcycle
      rw [if_neg (by rw [hcycle]; simp)]
      rfl
    | some p =>
      rw [hfind] at hcycle
      rw [if_pos (by rw [hcycle]; simp), hcycle]
      rfl

/-- Witness for C8 at a concrete input (the triangle graph). -/
theorem C8_witness :
    (hamilton_bruteforce [1, 2, 3] [(1, 2), (2, 3), (1, 3)]).path
        = (generate_permutations [1, 2, 3]).find?
            (fun p => is_valid_path [(1, 2), (2, 3), (1, 3)] p) ∧
    (hamilton_bruteforce [1, 2, 3] [(1, 2), (2, 3), (1, 3)]).cycle
        = ((generate_permutations [1, 2, 3]).find? fun p =>
            is_valid_path [(1, 2), (2, 3), (1, 3)] p &&
            (decide (3 ≤ p.length) &&
              has_edge [(1, 2), (2, 3), (1, 3)] (p.getLastD 0) p.headI) &&
            decide (p.length = ([1, 2, 3] : List Int).length)).map
            (fun p => p ++ [p.headI]) :=
  C8_bruteforce_first_valid [1, 2, 3] [(1, 2), (2, 3), (1, 3)] (by decide)
